import Mathlib

/-!
Shallow embedding of the prize reservation subsystem of the Lucky Dice
application (MongoDB-backed prize ledger, reservation entries, allocation,
confirm/release transitions, stale-reservation sweep, statistics and the
admin listing).  Documents are modelled as Lean structures, a MongoDB
collection as a `List` of documents, and each single-document atomic
operation (`findOne`, `findOneAndUpdate`, `updateOne`, `insertOne`) as a
pure function on that list.  Timestamps are modelled as `Nat` milliseconds
and inventory counts as `Int` so that the non-negativity invariant is a
real statement rather than an artifact of `Nat` truncation.
-/

namespace Dice

/-- Reservation lifecycle status, from the `Entry` interface in
`api/_lib/types.ts`: `'reserved' | 'confirmed' | 'released'`. -/
inductive Status where
  | reserved
  | confirmed
  | released
deriving DecidableEq, Repr

/-- A prize document, from the `Prize` interface in `api/_lib/types.ts`
(`_id` and `createdAt` omitted: no modelled operation reads them). -/
structure Prize where
  id : Nat
  name : String
  description : String
  icon : String
  inventory : Int
  updatedAt : Nat
deriving DecidableEq, Repr

/-- An entry (reservation) document, from the `Entry` interface in
`api/_lib/types.ts`.  `eid` models the MongoDB `_id`. -/
structure Entry where
  eid : Nat
  email : String
  prizeId : Nat
  prizeName : String
  prizeIcon : String
  collected : Bool
  status : Status
  createdAt : Nat
  updatedAt : Nat
deriving DecidableEq, Repr

/-- The database: the `prizes` and `entries` collections. -/
structure Db where
  prizes : List Prize
  entries : List Entry
deriving DecidableEq, Repr

/-- Model of a MongoDB single-document conditional update
(`findOneAndUpdate` / `updateOne` with `returnDocument: 'after'`):
update the first document matching `p` with `u`, returning the new list
and the post-update document (`none` when nothing matched). -/
def updateFirst (p : α → Bool) (u : α → α) : List α → List α × Option α
  | [] => ([], none)
  | x :: xs =>
    if p x then (u x :: xs, some (u x))
    else
      let r := updateFirst p u xs
      (x :: r.1, r.2)

/-- `findOne({ id })` on the prizes collection. -/
def findPrize (l : List Prize) (k : Nat) : Option Prize :=
  l.find? (fun p => decide (p.id = k))

/-- `findOne({ _id })` on the entries collection. -/
def findEntry (l : List Entry) (k : Nat) : Option Entry :=
  l.find? (fun e => decide (e.eid = k))

/-- The remaining count of prize `k` as an observer sees it
(0 when the prize document does not exist). -/
def invOfL (l : List Prize) (k : Nat) : Int :=
  ((findPrize l k).map Prize.inventory).getD 0

/- ### Email validation -/

/-- A character matched by the regex class `[^\s@]`. -/
def okChar (c : Char) : Bool := !c.isWhitespace && !(decide (c = '@'))

/-- JS `String.prototype.trim`: drop whitespace from both ends. -/
def trimChars (l : List Char) : List Char :=
  ((l.dropWhile Char.isWhitespace).reverse.dropWhile Char.isWhitespace).reverse

/-- JS `String.prototype.trim` lifted to `String`. -/
def trimStr (s : String) : String := ⟨trimChars s.data⟩

/-- JS `String.prototype.toLowerCase` (ASCII model). -/
def lowerStr (s : String) : String := ⟨s.data.map Char.toLower⟩

/-- Split a character list at its first `'@'`:
`some (before, after)`, or `none` when no `'@'` occurs. -/
def splitAtFirstAt : List Char → Option (List Char × List Char)
  | [] => none
  | c :: cs =>
    if decide (c = '@') then some ([], cs)
    else
      match splitAtFirstAt cs with
      | none => none
      | some r => some (c :: r.1, r.2)

/-- `true` iff the list contains a `'.'` that is neither its first nor its
last element (the shape forced by `[^\s@]+\.[^\s@]+` over an `@`-free,
whitespace-free tail). -/
def hasInnerDot (r : List Char) : Bool :=
  ((r.drop 1).dropLast).contains '.'

/-- Matcher for the anchored regex `^[^\s@]+@[^\s@]+\.[^\s@]+$` used by
both email validators: a nonempty `[^\s@]+` local part, the first `'@'`,
then a nonempty `[^\s@]`-only tail containing an inner dot. -/
def emailRegexTest (s : String) : Bool :=
  match splitAtFirstAt s.data with
  | none => false
  | some r =>
    !r.1.isEmpty && r.1.all okChar && !r.2.isEmpty && r.2.all okChar && hasInnerDot r.2

/-- `validateEmail` from `api/_lib/types.ts` (and, with identical text,
from `src/unnamed/part_014`): the bare regex test. -/
def ApiTypes.validateEmail (s : String) : Bool := emailRegexTest s

/-- `validateEmail` from `src/lib/validation.ts`: reject the empty string
(falsy in JS), then run the same regex on the trimmed input. -/
def Validation.validateEmail (s : String) : Bool :=
  if s.isEmpty then false else emailRegexTest (trimStr s)

/-- `email.toLowerCase().trim()` as performed by the roll handlers. -/
def normalizeEmail (s : String) : String := trimStr (lowerStr s)

/- ### Prize ledger primitives (`src/lib/db/prizes`, inlined in the API
handlers as the same MongoDB update documents) -/

/-- `decrementInventory`: `findOneAndUpdate({ id, inventory: { $gt: 0 } },
{ $inc: { inventory: -1 }, $set: { updatedAt } })` — the atomic claim. -/
def decrementInventory (l : List Prize) (i : Nat) (now : Nat) :
    List Prize × Option Prize :=
  updateFirst (fun p => decide (p.id = i) && decide (0 < p.inventory))
    (fun p => { p with inventory := p.inventory - 1, updatedAt := now }) l

/-- `incrementInventory`: `findOneAndUpdate({ id },
{ $inc: { inventory: 1 }, $set: { updatedAt } })` — the release credit. -/
def incrementInventory (l : List Prize) (i : Nat) (now : Nat) :
    List Prize × Option Prize :=
  updateFirst (fun p => decide (p.id = i))
    (fun p => { p with inventory := p.inventory + 1, updatedAt := now }) l

/-- `DEFAULT_PRIZES` from `api/_lib/types.ts` (timestamps set on write). -/
def DEFAULT_PRIZES : List Prize :=
  [⟨1, "Premium T-Shirt", "Exclusive event merchandise", "👕", 50, 0⟩,
   ⟨2, "Wireless Earbuds", "High-quality audio experience", "🎧", 20, 0⟩,
   ⟨3, "Gift Card $25", "Redeemable store credit", "🎁", 100, 0⟩,
   ⟨4, "Smart Watch", "Premium wearable tech", "⌚", 10, 0⟩,
   ⟨5, "VIP Pass", "Access to exclusive sessions", "🎫", 30, 0⟩,
   ⟨6, "Mystery Box", "Surprise premium item", "📦", 40, 0⟩]

/-- One upsert of `resetPrizes` (`updateOne({ id }, { $set: {...prize,
updatedAt} }, { upsert: true })`). -/
def upsertPrize (l : List Prize) (d : Prize) (now : Nat) : List Prize :=
  let r := updateFirst (fun p => decide (p.id = d.id))
    (fun _ => { d with updatedAt := now }) l
  match r.2 with
  | some _ => r.1
  | none => l ++ [{ d with updatedAt := now }]

/-- `POST /api/prizes/reset`: upsert every default prize. -/
def resetPrizes (db : Db) (now : Nat) : Db :=
  { db with prizes := DEFAULT_PRIZES.foldl (fun ps d => upsertPrize ps d now) db.prizes }

/-- `PUT /api/prizes/:id` (`src/unnamed/part_015`, and identically
`src/unnamed/part_014`): set the provided metadata fields, clamping a
provided inventory with `Math.max(0, inventory)`.  Returns the updated
database and whether the prize was found. -/
def putPrizeHandler (db : Db) (prizeId : Nat) (inventory : Option Int)
    (name description icon : Option String) (now : Nat) : Db × Bool :=
  let r := updateFirst (fun p => decide (p.id = prizeId))
    (fun p =>
      { p with
        name := name.getD p.name,
        description := description.getD p.description,
        icon := icon.getD p.icon,
        inventory := match inventory with
          | some v => max 0 v
          | none => p.inventory,
        updatedAt := now }) db.prizes
  ({ db with prizes := r.1 }, r.2.isSome)

/- ### Reservation transitions -/

/-- Outcome of the confirm/release endpoints: HTTP 200 success, 404
`NOT_FOUND` or 400 `CONFLICT`. -/
inductive TransitionResult where
  | ok
  | notFound
  | conflict
deriving DecidableEq, Repr

/-- The confirm handler (`api/roll/confirm.ts`): guarded
`updateOne({ _id, status: 'reserved' }, { $set: { status: 'confirmed',
updatedAt } })`; on zero matches, a `findOne` distinguishes not-found,
already-confirmed (idempotent success) and conflict. -/
def confirmHandler (db : Db) (entryId now : Nat) : Db × TransitionResult :=
  let r := updateFirst
    (fun e => decide (e.eid = entryId) && decide (e.status = Status.reserved))
    (fun e => { e with status := Status.confirmed, updatedAt := now }) db.entries
  let db' := { db with entries := r.1 }
  match r.2 with
  | some _ => (db', .ok)
  | none =>
    match r.1.find? (fun e => decide (e.eid = entryId)) with
    | none => (db', .notFound)
    | some e =>
      if decide (e.status = Status.confirmed) then (db', .ok) else (db', .conflict)

/-- The release handler (second handler in `api/roll/confirm.ts`, and
identically `POST /api/roll/release` in `src/unnamed/part_014`):
`findOne({ _id, status: 'reserved' })`, then an unguarded
`updateOne({ _id }, { $set: { status: 'released', updatedAt } })` and an
inventory `$inc: 1`; on a missing reserved entry, a `findOne`
distinguishes not-found, already-released (idempotent success) and
conflict. -/
def releaseHandler (db : Db) (entryId now : Nat) : Db × TransitionResult :=
  match db.entries.find?
      (fun e => decide (e.eid = entryId) && decide (e.status = Status.reserved)) with
  | none =>
    match db.entries.find? (fun e => decide (e.eid = entryId)) with
    | none => (db, .notFound)
    | some e =>
      if decide (e.status = Status.released) then (db, .ok) else (db, .conflict)
  | some entry =>
    let entries' := (updateFirst (fun e => decide (e.eid = entryId))
      (fun e => { e with status := Status.released, updatedAt := now }) db.entries).1
    let prizes' := (incrementInventory db.prizes entry.prizeId now).1
    (⟨prizes', entries'⟩, .ok)

/-- `releaseEntry` from `src/lib/db/entries.ts`: the status-guarded atomic
transition `findOneAndUpdate({ _id, status: 'reserved' }, { $set:
{ status: 'released', updatedAt } })`. -/
def releaseEntry (l : List Entry) (entryId now : Nat) : List Entry × Option Entry :=
  updateFirst
    (fun e => decide (e.eid = entryId) && decide (e.status = Status.reserved))
    (fun e => { e with status := Status.released, updatedAt := now }) l

/- ### Stale-reservation sweep (`api/roll.ts`, lines 48-67) -/

/-- The sweep query predicate: `status: 'reserved', createdAt:
{ $lt: staleThreshold }`. -/
def staleP (threshold : Nat) (e : Entry) : Bool :=
  decide (e.status = Status.reserved) && decide (e.createdAt < threshold)

/-- One iteration of the sweep loop: unguarded `updateOne({ _id },
{ $set: { status: 'released', updatedAt } })` plus an inventory
`$inc: 1` on the entry's prize. -/
def releaseStale (db : Db) (se : Entry) (now : Nat) : Db :=
  ⟨(incrementInventory db.prizes se.prizeId now).1,
   (updateFirst (fun e => decide (e.eid = se.eid))
     (fun e => { e with status := Status.released, updatedAt := now }) db.entries).1⟩

/-- The sweep loop over the fetched stale entries. -/
def sweepList (now : Nat) : Db → List Entry → Db
  | db, [] => db
  | db, se :: rest => sweepList now (releaseStale db se now) rest

/-- The whole sweep: fetch entries still `reserved` whose `createdAt` is
older than `Date.now() - 5 * 60 * 1000`, then release each. -/
def sweepStale (db : Db) (now : Nat) : Db :=
  sweepList now db (db.entries.filter (staleP (now - 5 * 60 * 1000)))

/- ### The allocation (roll) handlers -/

/-- Outcome of a roll request: 400 `INVALID_EMAIL`, 400
`EMAIL_ALREADY_USED`, 400 `NO_INVENTORY`, 409 `CONFLICT`, or 200 with the
inserted entry id and the winning prize id. -/
inductive RollResult where
  | invalidEmail
  | emailUsed
  | noInventory
  | conflict
  | success (entryId : Nat) (prizeId : Nat)
deriving DecidableEq, Repr

/-- `insertOne` of a fresh entry in `reserved` state, fields copied from
the selected prize, as built in `api/roll.ts`. -/
def insertEntry (db : Db) (email : String) (p : Prize) (newId now : Nat) : Db :=
  { db with entries := db.entries ++
      [⟨newId, email, p.id, p.name, p.icon, false, Status.reserved, now, now⟩] }

/-- The claim-and-retry phase of `api/roll.ts` (lines 88-185).  Each of
the three database round trips may observe a different store state under
concurrency, so the phase takes the snapshot seen by the first claim
(`d1`), by the refetch of available prizes (`d2`) and by the retry claim
(`d3`); sequential execution instantiates all three with the same
database. -/
def rollClaimPhase (d1 d2 d3 : Db) (sel : Prize) (email : String)
    (newId now : Nat) : Db × RollResult :=
  let r1 := decrementInventory d1.prizes sel.id now
  match r1.2 with
  | some _ =>
    (insertEntry { d1 with prizes := r1.1 } email sel newId now, .success newId sel.id)
  | none =>
    let retryPrizes := d2.prizes.filter (fun p => decide (0 < p.inventory))
    match retryPrizes with
    | [] => (d2, .noInventory)
    | rp :: _ =>
      let r3 := decrementInventory d3.prizes rp.id now
      match r3.2 with
      | none => (d3, .conflict)
      | some _ =>
        (insertEntry { d3 with prizes := r3.1 } email rp newId now,
         .success newId rp.id)

/-- `POST /api/roll` (`api/roll.ts`), sequential execution, without the
background stale sweep (the sweep is `sweepStale` and runs
asynchronously): validate the email, reject an identity that already owns
a `confirmed` or `reserved` entry, reject when no prize has inventory,
pick `availablePrizes[pick % length]`, then run the claim phase. -/
def rollHandler (db : Db) (email : String) (pick newId now : Nat) :
    Db × RollResult :=
  if !(ApiTypes.validateEmail email) then (db, .invalidEmail)
  else
    let ne := normalizeEmail email
    let existing := db.entries.find? (fun e =>
      decide (e.email = ne) &&
        (decide (e.status = Status.confirmed) || decide (e.status = Status.reserved)))
    let available := db.prizes.filter (fun p => decide (0 < p.inventory))
    match existing with
    | some _ => (db, .emailUsed)
    | none =>
      match available with
      | [] => (db, .noInventory)
      | _ :: _ =>
        let sel := available.getD (pick % available.length) ⟨0, "", "", "", 0, 0⟩
        rollClaimPhase db db db sel ne newId now

/-- `POST /api/roll` of the express server (`src/unnamed/part_014`): the
duplicate-identity check matches only `status: 'confirmed'` entries, and
a failed claim returns `CONFLICT` immediately with no retry. -/
def roll14Handler (db : Db) (email : String) (pick newId now : Nat) :
    Db × RollResult :=
  if !(ApiTypes.validateEmail email) then (db, .invalidEmail)
  else
    let ne := normalizeEmail email
    match db.entries.find? (fun e =>
        decide (e.email = ne) && decide (e.status = Status.confirmed)) with
    | some _ => (db, .emailUsed)
    | none =>
      let available := db.prizes.filter (fun p => decide (0 < p.inventory))
      match available with
      | [] => (db, .noInventory)
      | _ :: _ =>
        let sel := available.getD (pick % available.length) ⟨0, "", "", "", 0, 0⟩
        let r1 := decrementInventory db.prizes sel.id now
        match r1.2 with
        | none => (db, .conflict)
        | some _ =>
          (insertEntry { db with prizes := r1.1 } ne sel newId now,
           .success newId sel.id)

/- ### Concurrency model for the atomic claim (conservation, C1)

The only write a roll performs on a given prize is the guarded atomic
decrement `decrementInventory`.  Arbitrary concurrency over one prize is
therefore a serialization of these atomic events.  Each allocate call
performs at most two claim attempts against the prize (the selected claim
and at most one retry) and stops at its first success. -/

/-- The effect on one prize document of the atomic claim
`findOneAndUpdate({ id, inventory: { $gt: 0 } }, { $inc: { inventory: -1 } })`,
together with whether it matched. -/
def tryClaimPrize (pr : Prize) (now : Nat) : Prize × Bool :=
  if 0 < pr.inventory then
    ({ pr with inventory := pr.inventory - 1, updatedAt := now }, true)
  else (pr, false)

/-- Local state of one allocate call racing for the prize: how many claim
attempts it has issued (the code issues at most 2) and whether one
succeeded. -/
structure AllocCall where
  attempts : Nat
  won : Bool
deriving DecidableEq, Repr

/-- Schedule step: call `i` (if it exists and is still running) executes
its next atomic claim against the shared prize document. -/
def stepAlloc (now : Nat) (s : Prize × List AllocCall) (i : Nat) :
    Prize × List AllocCall :=
  match s.2[i]? with
  | none => s
  | some c =>
    if c.won || decide (2 ≤ c.attempts) then s
    else
      let r := tryClaimPrize s.1 now
      (r.1, s.2.set i ⟨c.attempts + 1, r.2⟩)

/-- Run an arbitrary interleaving (schedule) of the calls' atomic claim
events against the prize. -/
def runAlloc (now : Nat) (pr : Prize) (cs : List AllocCall) (sched : List Nat) :
    Prize × List AllocCall :=
  sched.foldl (stepAlloc now) (pr, cs)

/-- Number of calls that successfully claimed the prize. -/
def wins (cs : List AllocCall) : Nat := cs.countP (·.won)

/- ### Concurrency model for the release handler (C4)

The release handler is a sequence of three separately-atomic database
operations: the reserved-entry `findOne`, the unguarded entry
`updateOne`, and the inventory `$inc`.  Interleaving two handler
instances is a schedule over these atomic steps. -/

/-- Control state of one in-flight release handler instance: `pc` 0 =
about to run the `findOne`, 1 = about to run the entry update, 2 = about
to run the inventory increment, 3 = finished.  `foundPrize` is the
`prizeId` read by the `findOne`; `succeeded` records reaching the
success response. -/
structure RelInst where
  pc : Nat
  foundPrize : Nat
  succeeded : Bool
deriving DecidableEq, Repr

/-- One atomic step of a release handler instance. -/
def relStep (entryId now : Nat) (db : Db) (inst : RelInst) : Db × RelInst :=
  if inst.pc = 0 then
    match db.entries.find?
        (fun e => decide (e.eid = entryId) && decide (e.status = Status.reserved)) with
    | none => (db, { inst with pc := 3 })
    | some e => (db, { inst with pc := 1, foundPrize := e.prizeId })
  else if inst.pc = 1 then
    ({ db with entries := (updateFirst (fun e => decide (e.eid = entryId))
        (fun e => { e with status := Status.released, updatedAt := now })
        db.entries).1 },
     { inst with pc := 2 })
  else if inst.pc = 2 then
    ({ db with prizes := (incrementInventory db.prizes inst.foundPrize now).1 },
     { inst with pc := 3, succeeded := true })
  else (db, inst)

/-- Interleave two release handler instances for the same entry id:
`true` steps the first instance, `false` the second. -/
def runRel2 (entryId now : Nat) :
    Db → RelInst → RelInst → List Bool → Db × RelInst × RelInst
  | db, a, b, [] => (db, a, b)
  | db, a, b, true :: rest =>
    let s := relStep entryId now db a
    runRel2 entryId now s.1 s.2 b rest
  | db, a, b, false :: rest =>
    let s := relStep entryId now db b
    runRel2 entryId now s.1 a s.2 rest

/- ### Statistics (`GET /api/stats`, `src/unnamed/part_016` /
`getStats` in `src/lib/db/entries.ts`) -/

/-- One row of the stats `prizeDistribution` array. -/
structure PrizeDist where
  prizeId : Nat
  name : String
  icon : String
  count : Nat
  inventory : Int
deriving DecidableEq, Repr

/-- The aggregation `[{ $match: { status: 'confirmed' } }, { $group:
{ _id: '$prizeId', count: { $sum: 1 } } }]`: one `(prizeId, count)` pair
per distinct `prizeId` among confirmed entries. -/
def groupCounts (l : List Entry) : List (Nat × Nat) :=
  let conf := l.filter (fun e => decide (e.status = Status.confirmed))
  (conf.map (·.prizeId)).dedup.map
    (fun pid => (pid, conf.countP (fun e => decide (e.prizeId = pid))))

/-- The stats response computed by the handler. -/
structure StatsResponse where
  totalRolls : Nat
  collected : Nat
  pending : Nat
  prizeDistribution : List PrizeDist
deriving DecidableEq, Repr

/-- The stats handler: `totalRolls` and `collected` are direct
`countDocuments` queries on confirmed entries; `prizeDistribution` maps
every prize to its aggregated count (`0` when the prize id is absent from
the aggregation). -/
def statsHandler (db : Db) : StatsResponse :=
  let totalRolls := db.entries.countP (fun e => decide (e.status = Status.confirmed))
  let collected := db.entries.countP
    (fun e => decide (e.status = Status.confirmed) && e.collected)
  let dist := groupCounts db.entries
  { totalRolls := totalRolls,
    collected := collected,
    pending := totalRolls - collected,
    prizeDistribution := db.prizes.map (fun p =>
      ⟨p.id, p.name, p.icon,
       ((dist.find? (fun q => decide (q.1 = p.id))).map (·.2)).getD 0,
       p.inventory⟩) }

/- ### Admin entry listing (`getEntries` in `src/lib/db/entries.ts` /
`GET /api/entries` in `src/unnamed/part_014`) -/

/-- The `status` query option: `'all' | 'collected' | 'pending'`. -/
inductive StatusOpt where
  | all
  | collected
  | pending
deriving DecidableEq, Repr

/-- `needle` occurs as a contiguous run inside `hay`. -/
def leadsWith : List Char → List Char → Bool
  | [], _ => true
  | _ :: _, [] => false
  | a :: as, b :: bs => decide (a = b) && leadsWith as bs

/-- Substring containment on character lists. -/
def containsSub (needle : List Char) : List Char → Bool
  | [] => needle.isEmpty
  | l@(_ :: xs) => leadsWith needle l || containsSub needle xs

/-- The case-insensitive email search (`$regex` with escaped pattern and
option `i`): case-insensitive substring containment. -/
def emailSearch (hay pat : String) : Bool :=
  containsSub (lowerStr pat).data (lowerStr hay).data

/-- The query document built by `getEntries`: always `status:
'confirmed'`, plus a `collected` criterion for the `'collected'` and
`'pending'` options, plus the email search when `search` is nonempty. -/
def entriesQuery (status : StatusOpt) (search : String) (e : Entry) : Bool :=
  decide (e.status = Status.confirmed)
  && (match status with
      | .all => true
      | .collected => e.collected
      | .pending => !e.collected)
  && (search.isEmpty || emailSearch e.email search)

/-- Insert into a list already sorted by `createdAt` descending. -/
def insertByCreated (e : Entry) : List Entry → List Entry
  | [] => [e]
  | x :: xs =>
    if x.createdAt ≤ e.createdAt then e :: x :: xs
    else x :: insertByCreated e xs

/-- `.sort({ createdAt: -1 })`. -/
def sortByCreatedDesc : List Entry → List Entry
  | [] => []
  | e :: rest => insertByCreated e (sortByCreatedDesc rest)

/-- `getEntries`: filter by the query, count the total, sort by
`createdAt` descending, then apply `.skip((page - 1) * limit)` and
`.limit(limit)`.  Returns the page and the total count. -/
def getEntries (db : Db) (page limit : Nat) (status : StatusOpt)
    (search : String) : List Entry × Nat :=
  let filtered := db.entries.filter (entriesQuery status search)
  let sorted := sortByCreatedDesc filtered
  ((sorted.drop ((page - 1) * limit)).take limit, filtered.length)

/-! ## Lemmas about the atomic update primitive -/

theorem updateFirst_cons_pos {p : α → Bool} {u : α → α} {x : α} {xs : List α}
    (hx : p x = true) : updateFirst p u (x :: xs) = (u x :: xs, some (u x)) := by
  simp [updateFirst, hx]

theorem updateFirst_cons_neg {p : α → Bool} {u : α → α} {x : α} {xs : List α}
    (hx : p x = false) :
    updateFirst p u (x :: xs)
      = (x :: (updateFirst p u xs).1, (updateFirst p u xs).2) := by
  simp [updateFirst, hx]

theorem updateFirst_nomatch {p : α → Bool} {u : α → α} {l : List α}
    (h : ∀ x ∈ l, p x = false) : updateFirst p u l = (l, none) := by
  induction l with
  | nil => rfl
  | cons x xs ih =>
    rw [updateFirst_cons_neg (h x (List.mem_cons_self x xs)),
      ih (fun z hz => h z (List.mem_cons_of_mem x hz))]

theorem updateFirst_snd_none {p : α → Bool} {u : α → α} {l : List α}
    (h : (updateFirst p u l).2 = none) : (updateFirst p u l).1 = l := by
  induction l with
  | nil => rfl
  | cons x xs ih =>
    by_cases hx : p x
    · rw [updateFirst_cons_pos hx] at h
      simp at h
    · rw [updateFirst_cons_neg (by simpa using hx)] at h ⊢
      simpa using ih h

theorem updateFirst_length {p : α → Bool} {u : α → α} (l : List α) :
    ((updateFirst p u l).1).length = l.length := by
  induction l with
  | nil => rfl
  | cons x xs ih =>
    by_cases hx : p x
    · rw [updateFirst_cons_pos hx]
      simp
    · rw [updateFirst_cons_neg (by simpa using hx)]
      simpa using ih

theorem map_key_updateFirst {p : α → Bool} {u : α → α} {β : Type} (key : α → β)
    (hu : ∀ x, key (u x) = key x) (l : List α) :
    ((updateFirst p u l).1).map key = l.map key := by
  induction l with
  | nil => rfl
  | cons x xs ih =>
    by_cases hx : p x
    · rw [updateFirst_cons_pos hx]
      simp [hu]
    · rw [updateFirst_cons_neg (by simpa using hx)]
      simpa using ih

theorem updateFirst_eq_some {p : α → Bool} {u : α → α} {l : List α} {y : α}
    (h : (updateFirst p u l).2 = some y) :
    ∃ a x b, l = a ++ x :: b ∧ (∀ z ∈ a, p z = false) ∧ p x = true ∧
      y = u x ∧ (updateFirst p u l).1 = a ++ u x :: b := by
  induction l with
  | nil => simp [updateFirst] at h
  | cons x xs ih =>
    by_cases hx : p x
    · rw [updateFirst_cons_pos hx] at h
      refine ⟨[], x, xs, rfl, by simp, hx, by simpa using h.symm, ?_⟩
      rw [updateFirst_cons_pos hx]
      rfl
    · rw [updateFirst_cons_neg (by simpa using hx)] at h
      obtain ⟨a, z, b, hl, ha, hz, hy, hres⟩ := ih h
      refine ⟨x :: a, z, b, by simp [hl], ?_, hz, hy, ?_⟩
      · intro w hw
        rcases List.mem_cons.mp hw with hw | hw
        · subst hw; simpa using hx
        · exact ha w hw
      · rw [updateFirst_cons_neg (by simpa using hx), hres]
        rfl

theorem updateFirst_forall {p : α → Bool} {u : α → α} {l : List α}
    (P : α → Prop) (hl : ∀ x ∈ l, P x)
    (hu : ∀ x ∈ l, P x → p x = true → P (u x)) :
    ∀ y ∈ (updateFirst p u l).1, P y := by
  induction l with
  | nil => simp [updateFirst]
  | cons x xs ih =>
    by_cases hx : p x
    · rw [updateFirst_cons_pos hx]
      intro y hy
      rcases List.mem_cons.mp hy with hy | hy
      · subst hy
        exact hu x (List.mem_cons_self x xs) (hl x (List.mem_cons_self x xs)) hx
      · exact hl y (List.mem_cons_of_mem x hy)
    · rw [updateFirst_cons_neg (by simpa using hx)]
      intro y hy
      rcases List.mem_cons.mp hy with hy | hy
      · subst hy; exact hl y (List.mem_cons_self y xs)
      · exact ih (fun z hz => hl z (List.mem_cons_of_mem x hz))
          (fun z hz => hu z (List.mem_cons_of_mem x hz)) y hy

theorem find?_key_updateFirst {u : α → α} {β : Type} [DecidableEq β] (key : α → β)
    (hu : ∀ x, key (u x) = key x) (l : List α) (j k : β) :
    ((updateFirst (fun x => decide (key x = j)) u l).1).find?
        (fun x => decide (key x = k))
      = if k = j then (l.find? (fun x => decide (key x = k))).map u
        else l.find? (fun x => decide (key x = k)) := by
  induction l with
  | nil => by_cases hkj : k = j <;> simp [updateFirst, hkj]
  | cons x xs ih =>
    by_cases hxj : key x = j
    · rw [updateFirst_cons_pos (by simpa using hxj)]
      by_cases hkj : k = j
      · subst hkj
        rw [List.find?_cons_of_pos _ (by simpa [hu] using hxj),
          List.find?_cons_of_pos _ (by simpa using hxj)]
        simp
      · have hxk : ¬ key x = k := by rw [hxj]; exact fun h => hkj h.symm
        rw [List.find?_cons_of_neg _ (by simpa [hu] using hxk),
          List.find?_cons_of_neg _ (by simpa using hxk), if_neg hkj]
    · rw [updateFirst_cons_neg (by simpa using hxj)]
      by_cases hxk : key x = k
      · have hkj : ¬ k = j := fun h => hxj (by rw [hxk, h])
        rw [List.find?_cons_of_pos _ (by simpa using hxk),
          List.find?_cons_of_pos _ (by simpa using hxk), if_neg hkj]
      · rw [List.find?_cons_of_neg _ (by simpa using hxk),
          List.find?_cons_of_neg _ (by simpa using hxk)]
        exact ih

theorem find?_key_of_nodup_mem {β : Type} [DecidableEq β] (key : α → β)
    {l : List α} {x : α} (hnd : (l.map key).Nodup) (hx : x ∈ l) :
    l.find? (fun y => decide (key y = key x)) = some x := by
  induction l with
  | nil => simp at hx
  | cons z zs ih =>
    rcases List.mem_cons.mp hx with hx | hx
    · subst hx
      exact List.find?_cons_of_pos _ (by simp)
    · have hz : ¬ key z = key x := by
        intro h
        have hm : key x ∈ zs.map key := List.mem_map_of_mem key hx
        simp only [List.map_cons, List.nodup_cons] at hnd
        exact hnd.1 (h ▸ hm)
      rw [List.find?_cons_of_neg _ (by simpa using hz)]
      exact ih (by simp only [List.map_cons, List.nodup_cons] at hnd; exact hnd.2) hx

theorem eq_of_find?_key_nodup {β : Type} [DecidableEq β] (key : α → β)
    {l : List α} {e : α} {k : β} (hnd : (l.map key).Nodup)
    (hf : l.find? (fun y => decide (key y = k)) = some e) :
    ∀ x ∈ l, key x = k → x = e := by
  induction l with
  | nil => simp
  | cons z zs ih =>
    intro x hx hxk
    rcases List.mem_cons.mp hx with hx | hx
    · subst hx
      rw [List.find?_cons_of_pos _ (by simpa using hxk)] at hf
      exact Option.some_inj.mp hf
    · by_cases hz : key z = k
      · exfalso
        have hm : key x ∈ zs.map key := List.mem_map_of_mem key hx
        simp only [List.map_cons, List.nodup_cons] at hnd
        exact hnd.1 (by rw [hz, ← hxk]; exact hm)
      · rw [List.find?_cons_of_neg _ (by simpa using hz)] at hf
        exact ih (by simp only [List.map_cons, List.nodup_cons] at hnd; exact hnd.2)
          hf x hx hxk

theorem find?_key_and_of_nodup {β : Type} [DecidableEq β] (key : α → β)
    (q : α → Bool) {l : List α} {e : α} {k : β} (hnd : (l.map key).Nodup)
    (hf : l.find? (fun y => decide (key y = k)) = some e) :
    l.find? (fun y => decide (key y = k) && q y)
      = if q e then some e else none := by
  induction l with
  | nil => simp at hf
  | cons z zs ih =>
    by_cases hz : key z = k
    · have hze : z = e := by
        rw [List.find?_cons_of_pos _ (by simpa using hz)] at hf
        exact Option.some_inj.mp hf
      subst hze
      by_cases hq : q z
      · rw [List.find?_cons_of_pos _ (by simp [hz, hq]), if_pos hq]
      · rw [List.find?_cons_of_neg _ (by simp [hq]), if_neg (by simpa using hq)]
        rw [List.find?_eq_none]
        intro y hy
        have hyk : ¬ key y = k := by
          intro hyk
          have hm : key y ∈ zs.map key := List.mem_map_of_mem key hy
          simp only [List.map_cons, List.nodup_cons] at hnd
          exact hnd.1 (by rw [hyk, ← hz] at hm; exact hm)
        simp [hyk]
    · rw [List.find?_cons_of_neg _ (by simpa using hz)] at hf
      rw [List.find?_cons_of_neg _ (by simp [hz])]
      exact ih (by simp only [List.map_cons, List.nodup_cons] at hnd; exact hnd.2) hf

/-! ## Derived lemmas about the collections -/

theorem findEntry_updateFirst {u : Entry → Entry}
    (hu : ∀ e, (u e).eid = e.eid) (l : List Entry) (j k : Nat) :
    findEntry ((updateFirst (fun e => decide (e.eid = j)) u l).1) k
      = if k = j then (findEntry l k).map u else findEntry l k := by
  unfold findEntry
  exact find?_key_updateFirst Entry.eid hu l j k

theorem findPrize_incrementInventory (l : List Prize) (j k now : Nat) :
    findPrize (incrementInventory l j now).1 k
      = if k = j then
          (findPrize l k).map
            (fun p => { p with inventory := p.inventory + 1, updatedAt := now })
        else findPrize l k := by
  unfold findPrize incrementInventory
  exact @find?_key_updateFirst Prize
    (fun p => { p with inventory := p.inventory + 1, updatedAt := now }) Nat _
    Prize.id (fun _ => rfl) l j k

theorem invOfL_incrementInventory (l : List Prize) (j k now : Nat) :
    invOfL (incrementInventory l j now).1 k
      = if k = j ∧ (findPrize l j).isSome then invOfL l k + 1 else invOfL l k := by
  unfold invOfL
  rw [findPrize_incrementInventory]
  by_cases hkj : k = j
  · subst hkj
    cases h : findPrize l k with
    | none => simp [h]
    | some p => simp [h]
  · simp [hkj]

theorem isSome_findPrize_incrementInventory (l : List Prize) (j k now : Nat) :
    (findPrize (incrementInventory l j now).1 k).isSome
      = (findPrize l k).isSome := by
  rw [findPrize_incrementInventory]
  by_cases hkj : k = j
  · subst hkj
    cases h : findPrize l k <;> simp [h]
  · simp [hkj]

theorem invOfL_le_incrementInventory (l : List Prize) (j k now : Nat) :
    invOfL l k ≤ invOfL (incrementInventory l j now).1 k := by
  rw [invOfL_incrementInventory]
  by_cases h : k = j ∧ (findPrize l j).isSome
  · simp [h]
  · simp [h]

/-! ## Conservation of the atomic claim (C1 machinery) -/

theorem countP_set (p : α → Bool) :
    ∀ (l : List α) (i : Nat) (c x : α), l[i]? = some c →
      (l.set i x).countP p + (if p c then 1 else 0)
        = l.countP p + (if p x then 1 else 0) := by
  intro l
  induction l with
  | nil => intro i c x h; simp at h
  | cons y ys ih =>
    intro i c x h
    cases i with
    | zero =>
      simp only [List.getElem?_cons_zero, Option.some_inj] at h
      subst h
      simp only [List.set_cons_zero, List.countP_cons]
      omega
    | succ n =>
      simp only [List.getElem?_cons_succ] at h
      simp only [List.set_cons_succ, List.countP_cons]
      have := ih n c x h
      omega

theorem stepAlloc_invariant (now i : Nat) (pr : Prize) (cs : List AllocCall)
    (h : 0 ≤ pr.inventory) :
    (stepAlloc now (pr, cs) i).1.inventory + (wins (stepAlloc now (pr, cs) i).2 : Int)
        = pr.inventory + (wins cs : Int)
      ∧ 0 ≤ (stepAlloc now (pr, cs) i).1.inventory
      ∧ (stepAlloc now (pr, cs) i).2.length = cs.length := by
  cases hc : cs[i]? with
  | none =>
    have hstep : stepAlloc now (pr, cs) i = (pr, cs) := by
      simp only [stepAlloc, hc]
    rw [hstep]
    exact ⟨rfl, h, rfl⟩
  | some c =>
    have hstep : stepAlloc now (pr, cs) i =
        if c.won || decide (2 ≤ c.attempts) then (pr, cs)
        else ((tryClaimPrize pr now).1,
          cs.set i ⟨c.attempts + 1, (tryClaimPrize pr now).2⟩) := by
      simp only [stepAlloc, hc]
    rw [hstep]
    by_cases hdone : (c.won || decide (2 ≤ c.attempts)) = true
    · rw [if_pos hdone]
      exact ⟨rfl, h, rfl⟩
    · rw [if_neg hdone]
      have hcw : c.won = false := by
        cases hw : c.won
        · rfl
        · rw [hw] at hdone; simp at hdone
      by_cases hpos : 0 < pr.inventory
      · have htc : tryClaimPrize pr now
            = ({ pr with inventory := pr.inventory - 1, updatedAt := now }, true) := by
          unfold tryClaimPrize
          rw [if_pos hpos]
        rw [htc]
        have hset := countP_set (fun a => a.won) cs i c ⟨c.attempts + 1, true⟩ hc
        simp only [hcw] at hset
        refine ⟨?_, by show 0 ≤ pr.inventory - 1; omega, by simp⟩
        show pr.inventory - 1
            + ((cs.set i ⟨c.attempts + 1, true⟩).countP (fun a => a.won) : Int)
          = pr.inventory + (cs.countP (fun a => a.won) : Int)
        simp at hset
        omega
      · have htc : tryClaimPrize pr now = (pr, false) := by
          unfold tryClaimPrize
          rw [if_neg hpos]
        rw [htc]
        have hset := countP_set (fun a => a.won) cs i c ⟨c.attempts + 1, false⟩ hc
        simp only [hcw] at hset
        refine ⟨?_, h, by simp⟩
        show pr.inventory
            + ((cs.set i ⟨c.attempts + 1, false⟩).countP (fun a => a.won) : Int)
          = pr.inventory + (cs.countP (fun a => a.won) : Int)
        simp at hset
        omega

theorem runAlloc_invariant (now : Nat) (sched : List Nat) :
    ∀ (pr : Prize) (cs : List AllocCall), 0 ≤ pr.inventory →
      (runAlloc now pr cs sched).1.inventory + (wins (runAlloc now pr cs sched).2 : Int)
          = pr.inventory + (wins cs : Int)
        ∧ 0 ≤ (runAlloc now pr cs sched).1.inventory
        ∧ (runAlloc now pr cs sched).2.length = cs.length := by
  induction sched with
  | nil => intro pr cs h; exact ⟨rfl, h, rfl⟩
  | cons i rest ih =>
    intro pr cs h
    have hstep := stepAlloc_invariant now i pr cs h
    have hrun : runAlloc now pr cs (i :: rest)
        = runAlloc now (stepAlloc now (pr, cs) i).1 (stepAlloc now (pr, cs) i).2 rest := by
      unfold runAlloc
      simp [List.foldl_cons]
    rw [hrun]
    have hrest := ih (stepAlloc now (pr, cs) i).1 (stepAlloc now (pr, cs) i).2 hstep.2.1
    exact ⟨by rw [hrest.1, hstep.1], hrest.2.1, by rw [hrest.2.2, hstep.2.2]⟩

theorem releaseHandler_reserved_eq (db : Db) (k now : Nat) (e : Entry)
    (hnd : (db.entries.map Entry.eid).Nodup)
    (he : findEntry db.entries k = some e) (hres : e.status = Status.reserved) :
    releaseHandler db k now
      = (⟨(incrementInventory db.prizes e.prizeId now).1,
          (updateFirst (fun x => decide (x.eid = k))
            (fun x => { x with status := Status.released, updatedAt := now })
            db.entries).1⟩, TransitionResult.ok) := by
  have he' : db.entries.find? (fun x => decide (x.eid = k)) = some e := he
  have hfind2 : db.entries.find?
      (fun x => decide (x.eid = k) && decide (x.status = Status.reserved))
        = some e := by
    have h := find?_key_and_of_nodup Entry.eid
      (fun x => decide (x.status = Status.reserved)) hnd he'
    simp only [hres] at h
    simpa using h
  simp [releaseHandler, hfind2]

theorem sweepList_findEntry (now : Nat) :
    ∀ (stale : List Entry) (db : Db) (m : Nat),
      (stale.map Entry.eid).Nodup →
      findEntry (sweepList now db stale).entries m
        = if m ∈ stale.map Entry.eid then
            (findEntry db.entries m).map
              (fun e => { e with status := Status.released, updatedAt := now })
          else findEntry db.entries m := by
  intro stale
  induction stale with
  | nil => intro db m _; simp [sweepList]
  | cons se rest ih =>
    intro db m hnd
    have hndr : (rest.map Entry.eid).Nodup := by
      simp only [List.map_cons, List.nodup_cons] at hnd
      exact hnd.2
    have hse : se.eid ∉ rest.map Entry.eid := by
      simp only [List.map_cons, List.nodup_cons] at hnd
      exact hnd.1
    have hstep : (releaseStale db se now).entries
        = (updateFirst (fun x => decide (x.eid = se.eid))
            (fun x => { x with status := Status.released, updatedAt := now })
            db.entries).1 := rfl
    have hupd := @findEntry_updateFirst
      (fun x => { x with status := Status.released, updatedAt := now })
      (fun _ => rfl) db.entries se.eid m
    show findEntry (sweepList now (releaseStale db se now) rest).entries m = _
    rw [ih (releaseStale db se now) m hndr]
    by_cases hm : m = se.eid
    · have hmem : m ∈ (se :: rest).map Entry.eid := by simp [hm]
      have hnmem : m ∉ rest.map Entry.eid := by rw [hm]; exact hse
      rw [if_neg hnmem, if_pos hmem, hstep, hupd, if_pos hm]
    · by_cases hmr : m ∈ rest.map Entry.eid
      · have hmem : m ∈ (se :: rest).map Entry.eid := by simp [hmr]
        rw [if_pos hmr, if_pos hmem, hstep, hupd, if_neg hm]
      · have hmem : m ∉ (se :: rest).map Entry.eid := by
          simp only [List.map_cons, List.mem_cons]
          rintro (h | h)
          · exact hm h
          · exact hmr h
        rw [if_neg hmr, if_neg hmem, hstep, hupd, if_neg hm]

theorem sweepList_invOfL (now : Nat) :
    ∀ (stale : List Entry) (db : Db) (kk : Nat),
      (findPrize db.prizes kk).isSome →
      invOfL (sweepList now db stale).prizes kk
        = invOfL db.prizes kk
          + (stale.countP (fun se => decide (se.prizeId = kk)) : Int) := by
  intro stale
  induction stale with
  | nil => intro db kk _; simp [sweepList]
  | cons se rest ih =>
    intro db kk hp
    have hstep : (releaseStale db se now).prizes
        = (incrementInventory db.prizes se.prizeId now).1 := rfl
    have hp' : (findPrize (releaseStale db se now).prizes kk).isSome := by
      rw [hstep, isSome_findPrize_incrementInventory]
      exact hp
    show invOfL (sweepList now (releaseStale db se now) rest).prizes kk = _
    rw [ih (releaseStale db se now) kk hp', hstep, invOfL_incrementInventory,
      List.countP_cons]
    by_cases hkk : kk = se.prizeId
    · rw [if_pos ⟨hkk, by rw [← hkk]; exact hp⟩,
        if_pos (show (fun x => decide (x.prizeId = kk)) se = true by simp [hkk])]
      push_cast
      ring
    · rw [if_neg (by rintro ⟨h, _⟩; exact hkk h),
        if_neg (show ¬ (fun x => decide (x.prizeId = kk)) se = true by
          simp only [decide_eq_true_eq]
          exact fun h => hkk h.symm)]
      push_cast
      ring

theorem sweepList_entries_length (now : Nat) :
    ∀ (stale : List Entry) (db : Db),
      (sweepList now db stale).entries.length = db.entries.length := by
  intro stale
  induction stale with
  | nil => intro db; rfl
  | cons se rest ih =>
    intro db
    show (sweepList now (releaseStale db se now) rest).entries.length = _
    rw [ih]
    exact updateFirst_length db.entries

theorem sweepList_invOfL_le (now : Nat) :
    ∀ (stale : List Entry) (db : Db) (kk : Nat),
      invOfL db.prizes kk ≤ invOfL (sweepList now db stale).prizes kk := by
  intro stale
  induction stale with
  | nil => intro db kk; exact le_refl _
  | cons se rest ih =>
    intro db kk
    refine le_trans ?_ (ih (releaseStale db se now) kk)
    exact invOfL_le_incrementInventory db.prizes se.prizeId kk now

theorem incrementInventory_nonneg (l : List Prize) (i now : Nat)
    (h : ∀ p ∈ l, 0 ≤ p.inventory) :
    ∀ p ∈ (incrementInventory l i now).1, 0 ≤ p.inventory := by
  refine updateFirst_forall _ h ?_
  intro x _ hx _
  show 0 ≤ x.inventory + 1
  omega

theorem sweepList_prizes_nonneg (now : Nat) :
    ∀ (stale : List Entry) (db : Db), (∀ p ∈ db.prizes, 0 ≤ p.inventory) →
      ∀ p ∈ (sweepList now db stale).prizes, 0 ≤ p.inventory := by
  intro stale
  induction stale with
  | nil => intro db h; exact h
  | cons se rest ih =>
    intro db h
    refine ih (releaseStale db se now) ?_
    show ∀ p ∈ (incrementInventory db.prizes se.prizeId now).1, 0 ≤ p.inventory
    exact incrementInventory_nonneg db.prizes se.prizeId now h

theorem releaseHandler_prizes_cases (db : Db) (k now : Nat) :
    (releaseHandler db k now).1.prizes = db.prizes
    ∨ ∃ j, (releaseHandler db k now).1.prizes
        = (incrementInventory db.prizes j now).1 := by
  unfold releaseHandler
  cases h1 : db.entries.find?
      (fun e => decide (e.eid = k) && decide (e.status = Status.reserved)) with
  | none =>
    cases h2 : db.entries.find? (fun e => decide (e.eid = k)) with
    | none => left; rfl
    | some e =>
      dsimp only
      by_cases h3 : decide (e.status = Status.released) = true
      · rw [if_pos h3]
        left; rfl
      · rw [if_neg h3]
        left; rfl
  | some e =>
    right
    exact ⟨e.prizeId, rfl⟩

theorem upsertPrize_nonneg (l : List Prize) (d : Prize) (now : Nat)
    (hd : 0 ≤ d.inventory) (h : ∀ p ∈ l, 0 ≤ p.inventory) :
    ∀ p ∈ upsertPrize l d now, 0 ≤ p.inventory := by
  simp only [upsertPrize]
  cases hr : (updateFirst (fun p => decide (p.id = d.id))
      (fun _ => { d with updatedAt := now }) l).2 with
  | some q =>
    dsimp only
    refine updateFirst_forall _ h ?_
    intro x _ _ _
    exact hd
  | none =>
    dsimp only
    intro p hp
    rcases List.mem_append.mp hp with hp | hp
    · exact h p hp
    · rcases List.mem_cons.mp hp with hp | hp
      · rw [hp]; exact hd
      · simp at hp

theorem foldl_upsert_nonneg (now : Nat) :
    ∀ (ds : List Prize), (∀ d ∈ ds, 0 ≤ d.inventory) →
      ∀ (ps : List Prize), (∀ p ∈ ps, 0 ≤ p.inventory) →
      ∀ p ∈ ds.foldl (fun l d => upsertPrize l d now) ps, 0 ≤ p.inventory := by
  intro ds
  induction ds with
  | nil => intro _ ps h; exact h
  | cons d rest ih =>
    intro hds ps hps
    rw [List.foldl_cons]
    exact ih (fun x hx => hds x (List.mem_cons_of_mem d hx))
      (upsertPrize ps d now)
      (upsertPrize_nonneg ps d now (hds d (List.mem_cons_self d rest)) hps)

theorem updateFirst_snd_eq_none_iff {p : α → Bool} {u : α → α} {l : List α} :
    (updateFirst p u l).2 = none ↔ l.find? p = none := by
  induction l with
  | nil => simp [updateFirst]
  | cons x xs ih =>
    by_cases hx : p x
    · rw [updateFirst_cons_pos hx, List.find?_cons_of_pos _ hx]
      simp
    · rw [updateFirst_cons_neg (by simpa using hx),
        List.find?_cons_of_neg _ (by simpa using hx)]
      exact ih

theorem find?_map_pairs (f : Nat → Nat) :
    ∀ (ks : List Nat) (pid : Nat),
      (ks.map (fun k => (k, f k))).find? (fun q => decide (q.1 = pid))
        = if pid ∈ ks then some (pid, f pid) else none := by
  intro ks
  induction ks with
  | nil => intro pid; simp
  | cons k rest ih =>
    intro pid
    by_cases hk : k = pid
    · subst hk
      rw [List.map_cons, List.find?_cons_of_pos _ (by simp),
        if_pos (List.mem_cons_self k rest)]
    · rw [List.map_cons, List.find?_cons_of_neg _ (by simp [hk]), ih]
      by_cases hmem : pid ∈ rest
      · rw [if_pos hmem, if_pos (List.mem_cons_of_mem k hmem)]
      · rw [if_neg hmem, if_neg ?_]
        intro hc
        rcases List.mem_cons.mp hc with h | h
        · exact hk h.symm
        · exact hmem h

theorem groupCounts_lookup (l : List Entry) (pid : Nat) :
    (((groupCounts l).find? (fun q => decide (q.1 = pid))).map (fun q => q.2)).getD 0
      = (l.filter (fun e => decide (e.status = Status.confirmed))).countP
          (fun e => decide (e.prizeId = pid)) := by
  simp only [groupCounts]
  rw [find?_map_pairs
    (fun k => (l.filter (fun e => decide (e.status = Status.confirmed))).countP
      (fun e => decide (e.prizeId = k)))]
  by_cases hmem : pid ∈ ((l.filter
      (fun e => decide (e.status = Status.confirmed))).map (fun e => e.prizeId)).dedup
  · rw [if_pos hmem]
    rfl
  · rw [if_neg hmem]
    have hz : (l.filter (fun e => decide (e.status = Status.confirmed))).countP
        (fun e => decide (e.prizeId = pid)) = 0 := by
      rw [List.countP_eq_zero]
      intro e he
      simp only [decide_eq_true_eq]
      intro hpe
      exact hmem (List.mem_dedup.mpr
        (hpe ▸ List.mem_map_of_mem (fun e => e.prizeId) he))
    rw [hz]
    rfl

theorem sum_map_add {γ : Type} (f g : γ → Nat) :
    ∀ (l : List γ), (l.map (fun x => f x + g x)).sum
      = (l.map f).sum + (l.map g).sum := by
  intro l
  induction l with
  | nil => rfl
  | cons x xs ih =>
    simp only [List.map_cons, List.sum_cons, ih]
    omega

theorem sum_indicator_id :
    ∀ (prizes : List Prize) (k : Nat), (prizes.map Prize.id).Nodup →
      k ∈ prizes.map Prize.id →
      (prizes.map (fun p => if k = p.id then 1 else 0)).sum = 1 := by
  intro prizes
  induction prizes with
  | nil => intro k _ hmem; simp at hmem
  | cons p rest ih =>
    intro k hnd hmem
    simp only [List.map_cons, List.nodup_cons] at hnd
    simp only [List.map_cons, List.sum_cons]
    by_cases hk : k = p.id
    · rw [if_pos hk]
      have hz : (rest.map (fun q => if k = q.id then 1 else 0)).sum = 0 := by
        refine List.sum_eq_zero ?_
        intro x hx
        obtain ⟨q, hq, hqx⟩ := List.mem_map.mp hx
        have : k ≠ q.id := by
          intro hkq
          exact hnd.1 (by rw [← hk, hkq]; exact List.mem_map_of_mem Prize.id hq)
        rw [if_neg this] at hqx
        exact hqx.symm
      rw [hz]
    · rw [if_neg hk]
      have hmem' : k ∈ rest.map Prize.id := by
        simp only [List.map_cons, List.mem_cons] at hmem
        rcases hmem with h | h
        · exact absurd h hk
        · exact h
      rw [ih k hnd.2 hmem']

theorem countP_partition (prizes : List Prize)
    (hnd : (prizes.map Prize.id).Nodup) :
    ∀ (entries : List Entry),
      (∀ e ∈ entries, e.status = Status.confirmed →
        e.prizeId ∈ prizes.map Prize.id) →
      (prizes.map (fun p => entries.countP
          (fun e => decide (e.status = Status.confirmed)
            && decide (e.prizeId = p.id)))).sum
        = entries.countP (fun e => decide (e.status = Status.confirmed)) := by
  intro entries
  induction entries with
  | nil => intro _; simp
  | cons e rest ih =>
    intro hcov
    have hcr := ih (fun x hx hc => hcov x (List.mem_cons_of_mem e hx) hc)
    rw [List.countP_cons]
    have hmap : prizes.map (fun p => (e :: rest).countP
          (fun x => decide (x.status = Status.confirmed)
            && decide (x.prizeId = p.id)))
        = prizes.map (fun p => rest.countP
            (fun x => decide (x.status = Status.confirmed)
              && decide (x.prizeId = p.id))
          + if (decide (e.status = Status.confirmed)
              && decide (e.prizeId = p.id)) = true then 1 else 0) := by
      refine List.map_congr_left ?_
      intro p _
      rw [List.countP_cons]
    rw [hmap, sum_map_add, hcr]
    by_cases hconf : e.status = Status.confirmed
    · have hmem := hcov e (List.mem_cons_self e rest) hconf
      have hbr : prizes.map (fun p =>
            if (decide (e.status = Status.confirmed)
              && decide (e.prizeId = p.id)) = true then 1 else 0)
          = prizes.map (fun p => if e.prizeId = p.id then 1 else 0) := by
        refine List.map_congr_left ?_
        intro p _
        simp [hconf]
      rw [hbr, sum_indicator_id prizes e.prizeId hnd hmem]
      simp [hconf]
    · have hbr : prizes.map (fun p =>
            if (decide (e.status = Status.confirmed)
              && decide (e.prizeId = p.id)) = true then 1 else 0)
          = prizes.map (fun _ => 0) := by
        refine List.map_congr_left ?_
        intro p _
        simp [hconf]
      rw [hbr]
      have hz : (prizes.map (fun (_ : Prize) => 0)).sum = 0 := by
        refine List.sum_eq_zero ?_
        intro x hx
        obtain ⟨a, _, hax⟩ := List.mem_map.mp hx
        exact hax.symm
      rw [hz]
      simp [hconf]

theorem mem_insertByCreated {e x : Entry} :
    ∀ {l : List Entry}, x ∈ insertByCreated e l ↔ x = e ∨ x ∈ l := by
  intro l
  induction l with
  | nil => simp [insertByCreated]
  | cons y ys ih =>
    by_cases h : y.createdAt ≤ e.createdAt
    · simp [insertByCreated, h]
    · simp only [insertByCreated, h, if_neg, not_false_iff, List.mem_cons, ih]
      tauto

theorem mem_sortByCreatedDesc {x : Entry} :
    ∀ {l : List Entry}, x ∈ sortByCreatedDesc l ↔ x ∈ l := by
  intro l
  induction l with
  | nil => simp [sortByCreatedDesc]
  | cons e rest ih =>
    simp [sortByCreatedDesc, mem_insertByCreated, ih]

/-! ## Claim theorems -/

/-- C1: for any prize seeded with `remaining = I` (`0 ≤ I`) and any
interleaving of the atomic claim events of `N` allocate calls against
that prize (each call attempts the guarded atomic decrement at most
twice and stops at its first success), the number of successful calls is
at most `min(N, I)`, the final remaining count equals `I` minus the
number of successes, and the remaining count never goes negative. -/
theorem c1_allocate_conservation (pr : Prize) (N : Nat) (sched : List Nat)
    (now : Nat) (hI : 0 ≤ pr.inventory) :
    (wins (runAlloc now pr (List.replicate N ⟨0, false⟩) sched).2 : Int)
        ≤ min (N : Int) pr.inventory
      ∧ (runAlloc now pr (List.replicate N ⟨0, false⟩) sched).1.inventory
          = pr.inventory
            - wins (runAlloc now pr (List.replicate N ⟨0, false⟩) sched).2
      ∧ 0 ≤ (runAlloc now pr (List.replicate N ⟨0, false⟩) sched).1.inventory := by
  have hinv := runAlloc_invariant now sched pr (List.replicate N ⟨0, false⟩) hI
  have hw0 : wins (List.replicate N (⟨0, false⟩ : AllocCall)) = 0 := by
    unfold wins
    rw [List.countP_eq_zero]
    intro a ha
    rw [List.eq_of_mem_replicate ha]
    simp
  have hlen : (runAlloc now pr (List.replicate N ⟨0, false⟩) sched).2.length = N := by
    rw [hinv.2.2, List.length_replicate]
  have hle : wins (runAlloc now pr (List.replicate N ⟨0, false⟩) sched).2
      ≤ (runAlloc now pr (List.replicate N ⟨0, false⟩) sched).2.length :=
    List.countP_le_length _
  rw [hlen] at hle
  rw [hw0] at hinv
  refine ⟨le_min (by exact_mod_cast hle) (by omega), by omega, hinv.2.1⟩

/-- C1 witness: a prize with 2 units, 3 calls, a concrete schedule. -/
theorem c1_allocate_conservation_witness :
    0 ≤ (⟨1, "", "", "", 2, 0⟩ : Prize).inventory
      ∧ (wins (runAlloc 9 ⟨1, "", "", "", 2, 0⟩ (List.replicate 3 ⟨0, false⟩)
            [0, 1, 2, 0, 1, 2]).2 : Int) ≤ min (3 : Int) 2 :=
  ⟨by decide,
   (c1_allocate_conservation ⟨1, "", "", "", 2, 0⟩ 3 [0, 1, 2, 0, 1, 2] 9
     (by decide)).1⟩

/-- C2: every write path to a prize's remaining count preserves
`remaining >= 0`: the atomic claim decrements only under the
`inventory > 0` guard in one conditional step (its post-state is
non-negative with no hypothesis at all), and the release credit, the
admin update (which clamps with `Math.max(0, inventory)`), the reset to
the default prizes, the release endpoint and the stale sweep all keep
every inventory non-negative. -/
theorem c2_remaining_never_negative :
    (∀ (l : List Prize) (i now : Nat) (p' : Prize),
      (decrementInventory l i now).2 = some p' → 0 ≤ p'.inventory)
    ∧ (∀ (l : List Prize) (i now : Nat), (∀ p ∈ l, 0 ≤ p.inventory) →
      ∀ p ∈ (decrementInventory l i now).1, 0 ≤ p.inventory)
    ∧ (∀ (l : List Prize) (i now : Nat), (∀ p ∈ l, 0 ≤ p.inventory) →
      ∀ p ∈ (incrementInventory l i now).1, 0 ≤ p.inventory)
    ∧ (∀ (db : Db) (prizeId : Nat) (inventory : Option Int)
        (name description icon : Option String) (now : Nat),
      (∀ p ∈ db.prizes, 0 ≤ p.inventory) →
      ∀ p ∈ (putPrizeHandler db prizeId inventory name description icon now).1.prizes,
        0 ≤ p.inventory)
    ∧ (∀ (db : Db) (now : Nat), (∀ p ∈ db.prizes, 0 ≤ p.inventory) →
      ∀ p ∈ (resetPrizes db now).prizes, 0 ≤ p.inventory)
    ∧ (∀ (db : Db) (k now : Nat), (∀ p ∈ db.prizes, 0 ≤ p.inventory) →
      ∀ p ∈ (releaseHandler db k now).1.prizes, 0 ≤ p.inventory)
    ∧ (∀ (db : Db) (now : Nat), (∀ p ∈ db.prizes, 0 ≤ p.inventory) →
      ∀ p ∈ (sweepStale db now).prizes, 0 ≤ p.inventory) := by
  refine ⟨?_, ?_, ?_, ?_, ?_, ?_, ?_⟩
  · intro l i now p' h
    obtain ⟨a, x, b, _, _, hx, hp', _⟩ := updateFirst_eq_some h
    have hpos : 0 < x.inventory := by
      simp only [Bool.and_eq_true, decide_eq_true_eq] at hx
      exact hx.2
    rw [hp']
    show 0 ≤ x.inventory - 1
    omega
  · intro l i now h
    refine updateFirst_forall _ h ?_
    intro x _ _ hx
    have hpos : 0 < x.inventory := by
      simp only [Bool.and_eq_true, decide_eq_true_eq] at hx
      exact hx.2
    show 0 ≤ x.inventory - 1
    omega
  · exact incrementInventory_nonneg
  · intro db prizeId inventory name description icon now h
    refine updateFirst_forall _ h ?_
    intro x _ hx _
    show (0 : Int) ≤ (match inventory with | some v => max 0 v | none => x.inventory)
    cases inventory with
    | some v => exact le_max_left 0 v
    | none => exact hx
  · intro db now h
    refine foldl_upsert_nonneg now DEFAULT_PRIZES ?_ db.prizes h
    decide
  · intro db k now h
    rcases releaseHandler_prizes_cases db k now with hc | ⟨j, hc⟩
    · rw [hc]; exact h
    · rw [hc]; exact incrementInventory_nonneg db.prizes j now h
  · intro db now h
    exact sweepList_prizes_nonneg now _ db h

/-- C2 witness: on a store with non-negative inventories, the claim on an
exhausted prize leaves all inventories non-negative (and so do the other
write paths, exercised here through the clamped admin update that is
handed a negative inventory). -/
theorem c2_remaining_never_negative_witness :
    (∀ p ∈ (decrementInventory [⟨1, "A", "", "", 0, 0⟩] 1 9).1, 0 ≤ p.inventory)
    ∧ (∀ p ∈ (putPrizeHandler ⟨[⟨1, "A", "", "", 4, 0⟩], []⟩ 1 (some (-7))
        none none none 9).1.prizes, 0 ≤ p.inventory) :=
  ⟨c2_remaining_never_negative.2.1 [⟨1, "A", "", "", 0, 0⟩] 1 9 (by decide),
   c2_remaining_never_negative.2.2.2.1 ⟨[⟨1, "A", "", "", 4, 0⟩], []⟩ 1
     (some (-7)) none none none 9 (by decide)⟩

/-- C3: with unique entry ids, the transition endpoints are safe at the
terminal states: confirm on a `released` record answers `CONFLICT` and
changes nothing; confirm on a `confirmed` record is an idempotent no-op
reporting success; release on a `confirmed` record answers `CONFLICT` and
changes nothing; release on a `released` record is an idempotent no-op
reporting success.  In all four cases the database (in particular the
prize ledger) is unchanged, so the Ledger is never credited again. -/
theorem c3_state_machine_safety (db : Db) (k now : Nat) (e : Entry)
    (hnd : (db.entries.map Entry.eid).Nodup)
    (he : findEntry db.entries k = some e) :
    (e.status = Status.released →
      confirmHandler db k now = (db, TransitionResult.conflict))
    ∧ (e.status = Status.confirmed →
      confirmHandler db k now = (db, TransitionResult.ok))
    ∧ (e.status = Status.confirmed →
      releaseHandler db k now = (db, TransitionResult.conflict))
    ∧ (e.status = Status.released →
      releaseHandler db k now = (db, TransitionResult.ok)) := by
  have he' : db.entries.find? (fun x => decide (x.eid = k)) = some e := he
  refine ⟨?_, ?_, ?_, ?_⟩
  · intro hst
    have hfind2 : db.entries.find?
        (fun x => decide (x.eid = k) && decide (x.status = Status.reserved))
          = none := by
      have h := find?_key_and_of_nodup Entry.eid
        (fun x => decide (x.status = Status.reserved)) hnd he'
      simp only [hst] at h
      simpa using h
    have hr2 : (updateFirst
        (fun x => decide (x.eid = k) && decide (x.status = Status.reserved))
        (fun x => { x with status := Status.confirmed, updatedAt := now })
        db.entries).2 = none := updateFirst_snd_eq_none_iff.mpr hfind2
    have hr1 := updateFirst_snd_none hr2
    simp [confirmHandler, hr2, hr1, he', hst]
  · intro hst
    have hfind2 : db.entries.find?
        (fun x => decide (x.eid = k) && decide (x.status = Status.reserved))
          = none := by
      have h := find?_key_and_of_nodup Entry.eid
        (fun x => decide (x.status = Status.reserved)) hnd he'
      simp only [hst] at h
      simpa using h
    have hr2 : (updateFirst
        (fun x => decide (x.eid = k) && decide (x.status = Status.reserved))
        (fun x => { x with status := Status.confirmed, updatedAt := now })
        db.entries).2 = none := updateFirst_snd_eq_none_iff.mpr hfind2
    have hr1 := updateFirst_snd_none hr2
    simp [confirmHandler, hr2, hr1, he', hst]
  · intro hst
    have hfind2 : db.entries.find?
        (fun x => decide (x.eid = k) && decide (x.status = Status.reserved))
          = none := by
      have h := find?_key_and_of_nodup Entry.eid
        (fun x => decide (x.status = Status.reserved)) hnd he'
      simp only [hst] at h
      simpa using h
    simp [releaseHandler, hfind2, he', hst]
  · intro hst
    have hfind2 : db.entries.find?
        (fun x => decide (x.eid = k) && decide (x.status = Status.reserved))
          = none := by
      have h := find?_key_and_of_nodup Entry.eid
        (fun x => decide (x.status = Status.reserved)) hnd he'
      simp only [hst] at h
      simpa using h
    simp [releaseHandler, hfind2, he', hst]

/-- C3 witness: a store holding one released entry — confirm conflicts,
release reports idempotent success, and the state is untouched. -/
theorem c3_state_machine_safety_witness :
    confirmHandler
        ⟨[⟨1, "Gold", "", "🏆", 5, 0⟩],
         [⟨1, "a@b.c", 1, "Gold", "🏆", false, Status.released, 0, 0⟩]⟩ 1 77
      = (⟨[⟨1, "Gold", "", "🏆", 5, 0⟩],
          [⟨1, "a@b.c", 1, "Gold", "🏆", false, Status.released, 0, 0⟩]⟩,
         TransitionResult.conflict)
    ∧ releaseHandler
        ⟨[⟨1, "Gold", "", "🏆", 5, 0⟩],
         [⟨1, "a@b.c", 1, "Gold", "🏆", false, Status.released, 0, 0⟩]⟩ 1 77
      = (⟨[⟨1, "Gold", "", "🏆", 5, 0⟩],
          [⟨1, "a@b.c", 1, "Gold", "🏆", false, Status.released, 0, 0⟩]⟩,
         TransitionResult.ok) := by
  have h := c3_state_machine_safety
    ⟨[⟨1, "Gold", "", "🏆", 5, 0⟩],
     [⟨1, "a@b.c", 1, "Gold", "🏆", false, Status.released, 0, 0⟩]⟩ 1 77
    ⟨1, "a@b.c", 1, "Gold", "🏆", false, Status.released, 0, 0⟩
    (by decide) (by decide)
  exact ⟨h.1 rfl, h.2.2.2 rfl⟩

/-- C4 counterexample: two release handler invocations for the same
reservation, interleaved so that both pass the `findOne` check before
either writes, both reach the success response and the prize inventory is
incremented twice (5 becomes 7), contradicting the claim that only one
caller wins and the Ledger is credited exactly once. -/
theorem c4_release_concurrent_counterexample :
    (runRel2 1 100
        ⟨[⟨1, "Gold", "", "🏆", 5, 0⟩],
         [⟨1, "a@b.c", 1, "Gold", "🏆", false, Status.reserved, 0, 0⟩]⟩
        ⟨0, 0, false⟩ ⟨0, 0, false⟩
        [true, false, true, true, false, false]).2.1.succeeded = true
    ∧ (runRel2 1 100
        ⟨[⟨1, "Gold", "", "🏆", 5, 0⟩],
         [⟨1, "a@b.c", 1, "Gold", "🏆", false, Status.reserved, 0, 0⟩]⟩
        ⟨0, 0, false⟩ ⟨0, 0, false⟩
        [true, false, true, true, false, false]).2.2.succeeded = true
    ∧ invOfL (runRel2 1 100
        ⟨[⟨1, "Gold", "", "🏆", 5, 0⟩],
         [⟨1, "a@b.c", 1, "Gold", "🏆", false, Status.reserved, 0, 0⟩]⟩
        ⟨0, 0, false⟩ ⟨0, 0, false⟩
        [true, false, true, true, false, false]).1.prizes 1 = 5 + 2 := by
  refine ⟨rfl, rfl, by decide⟩

/-- C4 amended: only the status-guarded db-layer transition
(`releaseEntry`, a single conditional `findOneAndUpdate`) makes release
a one-winner race: once one atomic `releaseEntry` wins, any later one for
the same id fails and changes nothing.  The HTTP release handler
(`findOne` followed by an unguarded update and an inventory `$inc`)
credits the Ledger exactly once only when its invocations are
serialized: the first call succeeds and increments the inventory by
exactly 1, and a second, later call is an idempotent success that leaves
the store untouched.  (Interleaved invocations of the handler can
double-credit, as the counterexample shows.) -/
theorem c4_release_exactly_once :
    (∀ (l : List Entry) (k now now' : Nat) (e : Entry),
      (l.map Entry.eid).Nodup → (releaseEntry l k now).2 = some e →
      releaseEntry (releaseEntry l k now).1 k now'
        = ((releaseEntry l k now).1, none))
    ∧ (∀ (db : Db) (k now now' : Nat) (e : Entry),
      (db.entries.map Entry.eid).Nodup → findEntry db.entries k = some e →
      e.status = Status.reserved → (findPrize db.prizes e.prizeId).isSome →
      (releaseHandler db k now).2 = TransitionResult.ok
      ∧ invOfL (releaseHandler db k now).1.prizes e.prizeId
          = invOfL db.prizes e.prizeId + 1
      ∧ releaseHandler (releaseHandler db k now).1 k now'
          = ((releaseHandler db k now).1, TransitionResult.ok)) := by
  constructor
  · intro l k now now' e hnd h
    obtain ⟨a, x, b, hl, ha, hx, hex, hres⟩ := updateFirst_eq_some h
    have hxk : x.eid = k ∧ x.status = Status.reserved := by
      simpa using hx
    unfold releaseEntry
    rw [hres]
    refine updateFirst_nomatch ?_
    intro z hz
    rcases List.mem_append.mp hz with hz | hz
    · exact ha z hz
    · rcases List.mem_cons.mp hz with hz | hz
      · subst hz
        simp
      · have hzk : z.eid ≠ k := by
          intro hzk
          have hmap : (l.map Entry.eid).Nodup := hnd
          rw [hl] at hmap
          simp only [List.map_append, List.map_cons] at hmap
          have hnd2 := (List.nodup_append.mp hmap).2.1
          rw [List.nodup_cons] at hnd2
          exact hnd2.1 (by rw [hxk.1, ← hzk]; exact List.mem_map_of_mem Entry.eid hz)
        simp [hzk]
  · intro db k now now' e hnd he hres hp
    have he' : db.entries.find? (fun x => decide (x.eid = k)) = some e := he
    have hfind2 : db.entries.find?
        (fun x => decide (x.eid = k) && decide (x.status = Status.reserved))
          = some e := by
      have h := find?_key_and_of_nodup Entry.eid
        (fun x => decide (x.status = Status.reserved)) hnd he'
      simp only [hres] at h
      simpa using h
    have hrel : releaseHandler db k now
        = (⟨(incrementInventory db.prizes e.prizeId now).1,
            (updateFirst (fun x => decide (x.eid = k))
              (fun x => { x with status := Status.released, updatedAt := now })
              db.entries).1⟩, TransitionResult.ok) := by
      simp [releaseHandler, hfind2]
    refine ⟨by rw [hrel], ?_, ?_⟩
    · rw [hrel]
      show invOfL (incrementInventory db.prizes e.prizeId now).1 e.prizeId = _
      rw [invOfL_incrementInventory]
      simp [hp]
    · rw [hrel]
      have hfe1 : findEntry
          ((updateFirst (fun x => decide (x.eid = k))
            (fun x => { x with status := Status.released, updatedAt := now })
            db.entries).1) k
          = some { e with status := Status.released, updatedAt := now } := by
        have h := @findEntry_updateFirst
          (fun x => { x with status := Status.released, updatedAt := now })
          (fun _ => rfl) db.entries k k
        rw [if_pos rfl, he] at h
        simpa using h
      have hnd1 : (((updateFirst (fun x => decide (x.eid = k))
          (fun x => { x with status := Status.released, updatedAt := now })
          db.entries).1).map Entry.eid).Nodup := by
        rw [@map_key_updateFirst Entry (fun x => decide (x.eid = k))
          (fun x => { x with status := Status.released, updatedAt := now })
          Nat Entry.eid (fun _ => rfl) db.entries]
        exact hnd
      have hfind2' : ((updateFirst (fun x => decide (x.eid = k))
          (fun x => { x with status := Status.released, updatedAt := now })
          db.entries).1).find?
            (fun x => decide (x.eid = k) && decide (x.status = Status.reserved))
          = none := by
        have h := find?_key_and_of_nodup Entry.eid
          (fun x => decide (x.status = Status.reserved)) hnd1 hfe1
        simpa using h
      have hfe1r : ((updateFirst (fun x => decide (x.eid = k))
          (fun x => { x with status := Status.released, updatedAt := now })
          db.entries).1).find? (fun x => decide (x.eid = k))
          = some { e with status := Status.released, updatedAt := now } := hfe1
      simp [releaseHandler, hfind2', hfe1r]

/-- C4 witness for the amended claim: a winning atomic `releaseEntry`
blocks a rerun, and the serialized handler credits exactly once. -/
theorem c4_release_exactly_once_witness :
    releaseEntry
        (releaseEntry
          [⟨1, "a@b.c", 1, "Gold", "🏆", false, Status.reserved, 0, 0⟩] 1 50).1 1 60
      = ((releaseEntry
          [⟨1, "a@b.c", 1, "Gold", "🏆", false, Status.reserved, 0, 0⟩] 1 50).1,
         none)
    ∧ invOfL (releaseHandler
        ⟨[⟨1, "Gold", "", "🏆", 5, 0⟩],
         [⟨1, "a@b.c", 1, "Gold", "🏆", false, Status.reserved, 0, 0⟩]⟩ 1 50).1.prizes 1
      = invOfL [⟨1, "Gold", "", "🏆", 5, 0⟩] 1 + 1 := by
  have h1 := c4_release_exactly_once.1
    [⟨1, "a@b.c", 1, "Gold", "🏆", false, Status.reserved, 0, 0⟩] 1 50 60
    ⟨1, "a@b.c", 1, "Gold", "🏆", false, Status.released, 0, 50⟩
    (by decide) (by decide)
  have h2 := c4_release_exactly_once.2
    ⟨[⟨1, "Gold", "", "🏆", 5, 0⟩],
     [⟨1, "a@b.c", 1, "Gold", "🏆", false, Status.reserved, 0, 0⟩]⟩ 1 50 60
    ⟨1, "a@b.c", 1, "Gold", "🏆", false, Status.reserved, 0, 0⟩
    (by decide) (by decide) (by decide) (by decide)
  exact ⟨h1, h2.2.1⟩

/-- C5: reclamation is correct.  With unique entry and prize ids:
(1) every entry still `reserved` whose `createdAt` is older than the
5-minute threshold is swept to terminal status `released`;
(2) every other entry is untouched by the sweep;
(3) each prize's remaining count gains exactly 1 per swept reservation of
that prize — so a single swept reservation restores exactly 1 unit;
(4) an explicit release of a `reserved` entry reports success, leaves the
record `released`, and restores exactly 1 unit to its prize. -/
theorem c5_reclamation_correct (db : Db) (now : Nat)
    (hndE : (db.entries.map Entry.eid).Nodup)
    (hndP : (db.prizes.map Prize.id).Nodup) :
    (∀ e ∈ db.entries, staleP (now - 5 * 60 * 1000) e = true →
      findEntry (sweepStale db now).entries e.eid
        = some { e with status := Status.released, updatedAt := now })
    ∧ (∀ e ∈ db.entries, staleP (now - 5 * 60 * 1000) e = false →
      findEntry (sweepStale db now).entries e.eid = some e)
    ∧ (∀ p ∈ db.prizes,
      invOfL (sweepStale db now).prizes p.id
        = p.inventory
          + (db.entries.countP (fun x =>
              staleP (now - 5 * 60 * 1000) x && decide (x.prizeId = p.id)) : Int))
    ∧ (∀ (k : Nat) (e : Entry), findEntry db.entries k = some e →
      e.status = Status.reserved → (findPrize db.prizes e.prizeId).isSome →
      (releaseHandler db k now).2 = TransitionResult.ok
      ∧ findEntry (releaseHandler db k now).1.entries k
          = some { e with status := Status.released, updatedAt := now }
      ∧ invOfL (releaseHandler db k now).1.prizes e.prizeId
          = invOfL db.prizes e.prizeId + 1) := by
  have hndS : ((db.entries.filter (staleP (now - 5 * 60 * 1000))).map Entry.eid).Nodup :=
    List.Nodup.sublist (List.Sublist.map Entry.eid (List.filter_sublist db.entries)) hndE
  refine ⟨?_, ?_, ?_, ?_⟩
  · intro e he hst
    have hmem : e.eid ∈ (db.entries.filter (staleP (now - 5 * 60 * 1000))).map Entry.eid :=
      List.mem_map_of_mem Entry.eid (List.mem_filter.mpr ⟨he, hst⟩)
    have hfe : findEntry db.entries e.eid = some e :=
      find?_key_of_nodup_mem Entry.eid hndE he
    show findEntry (sweepList now db
        (db.entries.filter (staleP (now - 5 * 60 * 1000)))).entries e.eid = _
    rw [sweepList_findEntry now _ db e.eid hndS, if_pos hmem, hfe]
    rfl
  · intro e he hst
    have hfe : findEntry db.entries e.eid = some e :=
      find?_key_of_nodup_mem Entry.eid hndE he
    have hnmem : e.eid ∉
        (db.entries.filter (staleP (now - 5 * 60 * 1000))).map Entry.eid := by
      intro hmem
      obtain ⟨x, hx, hxk⟩ := List.mem_map.mp hmem
      have hx' := List.mem_filter.mp hx
      have hxe : x = e := eq_of_find?_key_nodup Entry.eid hndE hfe x hx'.1 hxk
      rw [hxe, hst] at hx'
      exact Bool.false_ne_true hx'.2
    show findEntry (sweepList now db
        (db.entries.filter (staleP (now - 5 * 60 * 1000)))).entries e.eid = _
    rw [sweepList_findEntry now _ db e.eid hndS, if_neg hnmem, hfe]
  · intro p hp
    have hfp : findPrize db.prizes p.id = some p :=
      find?_key_of_nodup_mem Prize.id hndP hp
    have hsome : (findPrize db.prizes p.id).isSome := by rw [hfp]; rfl
    show invOfL (sweepList now db
        (db.entries.filter (staleP (now - 5 * 60 * 1000)))).prizes p.id = _
    rw [sweepList_invOfL now _ db p.id hsome]
    have hinv : invOfL db.prizes p.id = p.inventory := by
      unfold invOfL
      rw [hfp]
      rfl
    have hcnt : (db.entries.filter (staleP (now - 5 * 60 * 1000))).countP
          (fun se => decide (se.prizeId = p.id))
        = db.entries.countP (fun x =>
            staleP (now - 5 * 60 * 1000) x && decide (x.prizeId = p.id)) := by
      rw [List.countP_filter]
      exact List.countP_congr (fun a _ => by rw [Bool.and_comm])
    rw [hinv, hcnt]
  · intro k e he hres hp
    have hrel := releaseHandler_reserved_eq db k now e hndE he hres
    refine ⟨by rw [hrel], ?_, ?_⟩
    · rw [hrel]
      have hfe1 := @findEntry_updateFirst
        (fun x => { x with status := Status.released, updatedAt := now })
        (fun _ => rfl) db.entries k k
      rw [if_pos rfl, he] at hfe1
      exact hfe1
    · rw [hrel]
      show invOfL (incrementInventory db.prizes e.prizeId now).1 e.prizeId = _
      rw [invOfL_incrementInventory]
      simp [hp]

/-- C5 witness: a stale reserved entry (age > 5 min) is swept to
`released`, a fresh reserved entry is untouched, and the prize regains
exactly the one swept unit. -/
theorem c5_reclamation_correct_witness :
    findEntry (sweepStale
        ⟨[⟨1, "A", "", "", 3, 0⟩],
         [⟨1, "a@b.c", 1, "A", "", false, Status.reserved, 0, 0⟩,
          ⟨2, "b@b.c", 1, "A", "", false, Status.reserved, 350000, 350000⟩]⟩
        400000).entries 1
      = some ⟨1, "a@b.c", 1, "A", "", false, Status.released, 0, 400000⟩
    ∧ findEntry (sweepStale
        ⟨[⟨1, "A", "", "", 3, 0⟩],
         [⟨1, "a@b.c", 1, "A", "", false, Status.reserved, 0, 0⟩,
          ⟨2, "b@b.c", 1, "A", "", false, Status.reserved, 350000, 350000⟩]⟩
        400000).entries 2
      = some ⟨2, "b@b.c", 1, "A", "", false, Status.reserved, 350000, 350000⟩
    ∧ invOfL (sweepStale
        ⟨[⟨1, "A", "", "", 3, 0⟩],
         [⟨1, "a@b.c", 1, "A", "", false, Status.reserved, 0, 0⟩,
          ⟨2, "b@b.c", 1, "A", "", false, Status.reserved, 350000, 350000⟩]⟩
        400000).prizes 1
      = 3 + ((1 : Nat) : Int) := by
  have h := c5_reclamation_correct
    ⟨[⟨1, "A", "", "", 3, 0⟩],
     [⟨1, "a@b.c", 1, "A", "", false, Status.reserved, 0, 0⟩,
      ⟨2, "b@b.c", 1, "A", "", false, Status.reserved, 350000, 350000⟩]⟩
    400000 (by decide) (by decide)
  refine ⟨h.1 ⟨1, "a@b.c", 1, "A", "", false, Status.reserved, 0, 0⟩
      (by decide) (by decide),
    h.2.1 ⟨2, "b@b.c", 1, "A", "", false, Status.reserved, 350000, 350000⟩
      (by decide) (by decide),
    ?_⟩
  have h3 := h.2.2.1 ⟨1, "A", "", "", 3, 0⟩ (by decide)
  rw [h3]
  norm_num
  decide

/-- C6 counterexample: in the express-server allocate
(`src/unnamed/part_014`), an identity that already owns a live
reservation in state `reserved` is NOT rejected: the duplicate check
matches only `confirmed` entries, so the call succeeds, claims the last
unit (inventory drops to 0) and creates a second reservation for the
same identity. -/
theorem c6_duplicate_identity_counterexample :
    (roll14Handler
        ⟨[⟨1, "Gold", "", "🏆", 1, 0⟩],
         [⟨1, "a@b.c", 1, "Gold", "🏆", false, Status.reserved, 0, 0⟩]⟩
        "a@b.c" 0 2 1000).2 = RollResult.success 2 1
    ∧ (roll14Handler
        ⟨[⟨1, "Gold", "", "🏆", 1, 0⟩],
         [⟨1, "a@b.c", 1, "Gold", "🏆", false, Status.reserved, 0, 0⟩]⟩
        "a@b.c" 0 2 1000).1.entries.length = 2
    ∧ invOfL (roll14Handler
        ⟨[⟨1, "Gold", "", "🏆", 1, 0⟩],
         [⟨1, "a@b.c", 1, "Gold", "🏆", false, Status.reserved, 0, 0⟩]⟩
        "a@b.c" 0 2 1000).1.prizes 1 = 0 := by
  refine ⟨rfl, rfl, by decide⟩

/-- C6 amended: the serverless allocate (`api/roll.ts`) rejects an
identity owning a live (`reserved` or `confirmed`) reservation with
`EMAIL_ALREADY_USED` and performs no write — and the background stale
sweep that may run alongside never creates an entry and never decreases
an inventory; the express-server allocate (`src/unnamed/part_014`)
rejects only identities owning a `confirmed` entry, so an identity whose
reservation is merely `reserved` can allocate again there. -/
theorem c6_one_live_reservation_per_identity :
    (∀ (db : Db) (email : String) (pick newId now : Nat) (e : Entry),
      ApiTypes.validateEmail email = true →
      db.entries.find? (fun x => decide (x.email = normalizeEmail email)
          && (decide (x.status = Status.confirmed)
            || decide (x.status = Status.reserved))) = some e →
      rollHandler db email pick newId now = (db, RollResult.emailUsed))
    ∧ (∀ (db : Db) (now : Nat),
      (sweepStale db now).entries.length = db.entries.length
      ∧ ∀ kk, invOfL db.prizes kk ≤ invOfL (sweepStale db now).prizes kk)
    ∧ (∀ (db : Db) (email : String) (pick newId now : Nat) (e : Entry),
      ApiTypes.validateEmail email = true →
      db.entries.find? (fun x => decide (x.email = normalizeEmail email)
          && decide (x.status = Status.confirmed)) = some e →
      roll14Handler db email pick newId now = (db, RollResult.emailUsed)) := by
  refine ⟨?_, ?_, ?_⟩
  · intro db email pick newId now e hval hfind
    simp [rollHandler, hval, hfind]
  · intro db now
    constructor
    · exact sweepList_entries_length now _ db
    · intro kk
      exact sweepList_invOfL_le now _ db kk
  · intro db email pick newId now e hval hfind
    simp [roll14Handler, hval, hfind]

/-- C6 witness for the amended claim: the serverless allocate turns away
an identity with a `reserved` entry, the express allocate turns away an
identity with a `confirmed` entry. -/
theorem c6_one_live_reservation_per_identity_witness :
    rollHandler
        ⟨[⟨1, "Gold", "", "🏆", 1, 0⟩],
         [⟨1, "a@b.c", 1, "Gold", "🏆", false, Status.reserved, 0, 0⟩]⟩
        "a@b.c" 0 2 1000
      = (⟨[⟨1, "Gold", "", "🏆", 1, 0⟩],
          [⟨1, "a@b.c", 1, "Gold", "🏆", false, Status.reserved, 0, 0⟩]⟩,
         RollResult.emailUsed)
    ∧ roll14Handler
        ⟨[⟨1, "Gold", "", "🏆", 1, 0⟩],
         [⟨1, "a@b.c", 1, "Gold", "🏆", false, Status.confirmed, 0, 0⟩]⟩
        "a@b.c" 0 2 1000
      = (⟨[⟨1, "Gold", "", "🏆", 1, 0⟩],
          [⟨1, "a@b.c", 1, "Gold", "🏆", false, Status.confirmed, 0, 0⟩]⟩,
         RollResult.emailUsed) :=
  ⟨c6_one_live_reservation_per_identity.1
      ⟨[⟨1, "Gold", "", "🏆", 1, 0⟩],
       [⟨1, "a@b.c", 1, "Gold", "🏆", false, Status.reserved, 0, 0⟩]⟩
      "a@b.c" 0 2 1000
      ⟨1, "a@b.c", 1, "Gold", "🏆", false, Status.reserved, 0, 0⟩
      (by decide) (by decide),
   c6_one_live_reservation_per_identity.2.2
      ⟨[⟨1, "Gold", "", "🏆", 1, 0⟩],
       [⟨1, "a@b.c", 1, "Gold", "🏆", false, Status.confirmed, 0, 0⟩]⟩
      "a@b.c" 0 2 1000
      ⟨1, "a@b.c", 1, "Gold", "🏆", false, Status.confirmed, 0, 0⟩
      (by decide) (by decide)⟩

/-- C7: the claim-and-retry phase of `api/roll.ts` under interference
(`d1`, `d2`, `d3` are the store states seen by the first claim, the
refetch, and the retry claim): when the first atomic claim loses the
race, the handler refetches the eligible set; if that set is empty it
answers `NO_INVENTORY` (Exhausted); it retries exactly once, against the
head of the refreshed eligible set (a prize eligible at refetch time);
if the retry claim also loses, it answers `409 CONFLICT` as an ordinary
result — every branch returns a typed `RollResult`, no exception. -/
theorem c7_bounded_retry_conflict :
    (∀ (d1 d2 d3 : Db) (sel : Prize) (ne : String) (newId now : Nat),
      (decrementInventory d1.prizes sel.id now).2 = none →
      d2.prizes.filter (fun p => decide (0 < p.inventory)) = [] →
      rollClaimPhase d1 d2 d3 sel ne newId now = (d2, RollResult.noInventory))
    ∧ (∀ (d1 d2 d3 : Db) (sel : Prize) (ne : String) (newId now : Nat)
        (rp : Prize) (rest : List Prize),
      (decrementInventory d1.prizes sel.id now).2 = none →
      d2.prizes.filter (fun p => decide (0 < p.inventory)) = rp :: rest →
      (decrementInventory d3.prizes rp.id now).2 = none →
      rollClaimPhase d1 d2 d3 sel ne newId now = (d3, RollResult.conflict))
    ∧ (∀ (d1 d2 d3 : Db) (sel : Prize) (ne : String) (newId now : Nat)
        (rp : Prize) (rest : List Prize) (q : Prize),
      (decrementInventory d1.prizes sel.id now).2 = none →
      d2.prizes.filter (fun p => decide (0 < p.inventory)) = rp :: rest →
      (decrementInventory d3.prizes rp.id now).2 = some q →
      rollClaimPhase d1 d2 d3 sel ne newId now
        = (insertEntry { d3 with prizes := (decrementInventory d3.prizes rp.id now).1 }
            ne rp newId now, RollResult.success newId rp.id)
      ∧ rp ∈ d2.prizes ∧ 0 < rp.inventory) := by
  refine ⟨?_, ?_, ?_⟩
  · intro d1 d2 d3 sel ne newId now h1 h2
    simp [rollClaimPhase, h1, h2]
  · intro d1 d2 d3 sel ne newId now rp rest h1 h2 h3
    simp [rollClaimPhase, h1, h2, h3]
  · intro d1 d2 d3 sel ne newId now rp rest q h1 h2 h3
    have hmem : rp ∈ d2.prizes.filter (fun p => decide (0 < p.inventory)) := by
      rw [h2]
      exact List.mem_cons_self rp rest
    have hmem' := List.mem_filter.mp hmem
    refine ⟨by simp [rollClaimPhase, h1, h2, h3], hmem'.1, by simpa using hmem'.2⟩

/-- C7 witness: the selected prize was raced to zero (`d1` sees it at 0),
the refreshed set offers prize 2, and the retry claim also loses (`d3`
sees prize 2 at 0): the phase answers `CONFLICT`. -/
theorem c7_bounded_retry_conflict_witness :
    rollClaimPhase
        ⟨[⟨1, "A", "", "", 0, 0⟩], []⟩
        ⟨[⟨1, "A", "", "", 0, 0⟩, ⟨2, "B", "", "", 1, 0⟩], []⟩
        ⟨[⟨2, "B", "", "", 0, 0⟩], []⟩
        ⟨1, "A", "", "", 1, 0⟩ "a@b.c" 9 100
      = (⟨[⟨2, "B", "", "", 0, 0⟩], []⟩, RollResult.conflict) :=
  c7_bounded_retry_conflict.2.1
    ⟨[⟨1, "A", "", "", 0, 0⟩], []⟩
    ⟨[⟨1, "A", "", "", 0, 0⟩, ⟨2, "B", "", "", 1, 0⟩], []⟩
    ⟨[⟨2, "B", "", "", 0, 0⟩], []⟩
    ⟨1, "A", "", "", 1, 0⟩ "a@b.c" 9 100
    ⟨2, "B", "", "", 1, 0⟩ []
    (by decide) (by decide) (by decide)

/-- C8: the statistics are pure derivations of the stores (the handler
state is only read): `totalRolls` is the direct count of `confirmed`
reservations; every row of `prizeDistribution` carries exactly the
direct count of `confirmed` reservations with that row's `prizeId`; and
— given unique prize ids and every confirmed reservation pointing at an
existing prize — the distribution counts sum to `totalRolls`. -/
theorem c8_stats_consistency (db : Db)
    (hndP : (db.prizes.map Prize.id).Nodup)
    (hcov : ∀ e ∈ db.entries, e.status = Status.confirmed →
      e.prizeId ∈ db.prizes.map Prize.id) :
    (statsHandler db).totalRolls
        = db.entries.countP (fun e => decide (e.status = Status.confirmed))
    ∧ (statsHandler db).prizeDistribution
        = db.prizes.map (fun p =>
            ⟨p.id, p.name, p.icon,
             db.entries.countP (fun e => decide (e.status = Status.confirmed)
               && decide (e.prizeId = p.id)), p.inventory⟩)
    ∧ ((statsHandler db).prizeDistribution.map PrizeDist.count).sum
        = (statsHandler db).totalRolls := by
  have hcount : ∀ pid,
      (((groupCounts db.entries).find?
        (fun q => decide (q.1 = pid))).map (fun q => q.2)).getD 0
      = db.entries.countP (fun e => decide (e.status = Status.confirmed)
          && decide (e.prizeId = pid)) := by
    intro pid
    rw [groupCounts_lookup, List.countP_filter]
    exact List.countP_congr (fun a _ => by rw [Bool.and_comm])
  have hdist : (statsHandler db).prizeDistribution
      = db.prizes.map (fun p =>
          ⟨p.id, p.name, p.icon,
           db.entries.countP (fun e => decide (e.status = Status.confirmed)
             && decide (e.prizeId = p.id)), p.inventory⟩) := by
    show db.prizes.map _ = db.prizes.map _
    refine List.map_congr_left ?_
    intro p _
    rw [PrizeDist.mk.injEq]
    exact ⟨rfl, rfl, rfl, hcount p.id, rfl⟩
  refine ⟨rfl, hdist, ?_⟩
  rw [hdist, List.map_map]
  show (db.prizes.map (fun p =>
      db.entries.countP (fun e => decide (e.status = Status.confirmed)
        && decide (e.prizeId = p.id)))).sum = _
  exact countP_partition db.prizes hndP db.entries hcov

/-- C8 witness: two confirmed reservations of prize 1, one reserved
reservation (ignored): totals and distribution line up. -/
theorem c8_stats_consistency_witness :
    ((statsHandler
        ⟨[⟨1, "A", "", "", 3, 0⟩, ⟨2, "B", "", "", 0, 0⟩],
         [⟨1, "x@y.z", 1, "A", "", true, Status.confirmed, 0, 0⟩,
          ⟨2, "q@y.z", 1, "A", "", false, Status.confirmed, 0, 0⟩,
          ⟨3, "r@y.z", 2, "B", "", false, Status.reserved, 0, 0⟩]⟩
      ).prizeDistribution.map PrizeDist.count).sum
      = (statsHandler
        ⟨[⟨1, "A", "", "", 3, 0⟩, ⟨2, "B", "", "", 0, 0⟩],
         [⟨1, "x@y.z", 1, "A", "", true, Status.confirmed, 0, 0⟩,
          ⟨2, "q@y.z", 1, "A", "", false, Status.confirmed, 0, 0⟩,
          ⟨3, "r@y.z", 2, "B", "", false, Status.reserved, 0, 0⟩]⟩).totalRolls :=
  (c8_stats_consistency
    ⟨[⟨1, "A", "", "", 3, 0⟩, ⟨2, "B", "", "", 0, 0⟩],
     [⟨1, "x@y.z", 1, "A", "", true, Status.confirmed, 0, 0⟩,
      ⟨2, "q@y.z", 1, "A", "", false, Status.confirmed, 0, 0⟩,
      ⟨3, "r@y.z", 2, "B", "", false, Status.reserved, 0, 0⟩]⟩
    (by decide) (by decide)).2.2

/-- C9: for every options value (`page`, `limit`, any `status` option
including `'all'`, any `search`), every entry in the paginated listing
has status `confirmed` — `reserved` and `released` records never appear —
and the `status` option filters only on the `collected` flag: the
`'collected'` (resp. `'pending'`) listing over the full store equals the
`'all'` listing over the store restricted to `collected = true`
(resp. `collected = false`) entries. -/
theorem c9_listing_only_confirmed :
    (∀ (db : Db) (page limit : Nat) (status : StatusOpt) (search : String),
      ∀ e ∈ (getEntries db page limit status search).1,
        e.status = Status.confirmed)
    ∧ (∀ (db : Db) (page limit : Nat) (search : String),
      getEntries db page limit StatusOpt.collected search
        = getEntries ⟨db.prizes, db.entries.filter (fun e => e.collected)⟩
            page limit StatusOpt.all search
      ∧ getEntries db page limit StatusOpt.pending search
        = getEntries ⟨db.prizes, db.entries.filter (fun e => !e.collected)⟩
            page limit StatusOpt.all search) := by
  constructor
  · intro db page limit status search e he
    simp only [getEntries] at he
    have hs : e ∈ sortByCreatedDesc (db.entries.filter (entriesQuery status search)) :=
      List.drop_subset _ _ (List.take_subset _ _ he)
    have hf : e ∈ db.entries.filter (entriesQuery status search) :=
      mem_sortByCreatedDesc.mp hs
    have hpred := (List.mem_filter.mp hf).2
    simp only [entriesQuery, Bool.and_eq_true, decide_eq_true_eq] at hpred
    exact hpred.1.1
  · intro db page limit search
    constructor
    · have hfilters : db.entries.filter (entriesQuery StatusOpt.collected search)
          = (db.entries.filter (fun e => e.collected)).filter
              (entriesQuery StatusOpt.all search) := by
        rw [List.filter_filter]
        refine List.filter_congr ?_
        intro e _
        simp [entriesQuery, Bool.and_comm, Bool.and_assoc, Bool.and_left_comm]
      simp only [getEntries]
      rw [hfilters]
    · have hfilters : db.entries.filter (entriesQuery StatusOpt.pending search)
          = (db.entries.filter (fun e => !e.collected)).filter
              (entriesQuery StatusOpt.all search) := by
        rw [List.filter_filter]
        refine List.filter_congr ?_
        intro e _
        simp [entriesQuery, Bool.and_comm, Bool.and_assoc, Bool.and_left_comm]
      simp only [getEntries]
      rw [hfilters]

/-- C9 witness: the listing over a store holding one of each status
shows only the confirmed entry. -/
theorem c9_listing_only_confirmed_witness :
    (⟨2, "q@y.z", 1, "A", "", false, Status.confirmed, 3, 3⟩ : Entry).status
      = Status.confirmed :=
  c9_listing_only_confirmed.1
    ⟨[⟨1, "A", "", "", 3, 0⟩],
     [⟨1, "x@y.z", 1, "A", "", false, Status.reserved, 5, 5⟩,
      ⟨2, "q@y.z", 1, "A", "", false, Status.confirmed, 3, 3⟩,
      ⟨3, "r@y.z", 1, "A", "", false, Status.released, 1, 1⟩]⟩
    1 20 StatusOpt.all ""
    ⟨2, "q@y.z", 1, "A", "", false, Status.confirmed, 3, 3⟩
    (by decide)

/-- C10 counterexample: the two email validators disagree on an address
with leading whitespace — `api/_lib/types.ts` rejects it (the anchored
regex sees the space), `src/lib/validation.ts` trims first and accepts. -/
theorem c10_validators_counterexample :
    ¬ (ApiTypes.validateEmail " a@b.c" = Validation.validateEmail " a@b.c") := by
  decide

/-- C10 amended: on every input that carries no leading or trailing
whitespace (i.e. is fixed by `trim`), the two email validators return the
same boolean; they disagree only on inputs that `trim` changes. -/
theorem c10_validators_agree_on_trimmed (s : String) (h : trimStr s = s) :
    ApiTypes.validateEmail s = Validation.validateEmail s := by
  unfold ApiTypes.validateEmail Validation.validateEmail
  by_cases he : s.isEmpty
  · have hs : s = "" := by
      cases s with
      | mk d =>
        cases d with
        | nil => rfl
        | cons a l =>
          simp [String.isEmpty, String.endPos, String.utf8ByteSize,
            String.Pos.ext_iff] at he
          have := Char.utf8Size_pos a
          omega
    subst hs
    simp [emailRegexTest, splitAtFirstAt]
  · simp [he, h]

/-- C10 witness: both validators accept a plain, already-trimmed
address. -/
theorem c10_validators_agree_on_trimmed_witness :
    trimStr "a@b.c" = "a@b.c"
      ∧ ApiTypes.validateEmail "a@b.c" = Validation.validateEmail "a@b.c" :=
  ⟨by decide, c10_validators_agree_on_trimmed "a@b.c" (by decide)⟩

end Dice
